import Mathlib

/-!
Shallow embedding of the bounded concurrent scorer of
`notebooks/02-g-eval-additive-llm-evaluation.ipynb` (repository
`philschmid/evaluate-llms`) and proofs of the specification's claims
about it.

The notebook defines
  * `get_eval_score(sample)`: renders a prompt from `sample["question"]`,
    `sample["context"]`, `sample["answer"]`, sends it to the judge model,
    and returns `{**sample, **json.loads(results)}`;
  * `sem = asyncio.Semaphore(5)`;
  * `limited_get_score(dataset)`: wraps each sample in the inner
    coroutine `gen` (acquire `sem`, await `get_eval_score`, tick the
    progress bar, release `sem`), gathers all tasks with
    `tqdm_asyncio.gather`, closes the progress bar and returns the
    gathered responses.

The network call together with `json.loads` of the returned message
content is modelled by an abstract `judge : Dict → Payload` function: a
payload is either `invalid` (meaning `json.loads` raises
`JSONDecodeError`) or the parsed JSON value.  The cooperative
interleaved execution of the `gen` coroutines is modelled twice, at the
two levels the claims speak about:

  * `limited_get_score` is the denotation of the batch call: on full
    success `tqdm_asyncio.gather` returns the results positionally (in
    task-submission order), and a raised exception in any task
    propagates out of the `await`; the sequential recursion below
    computes exactly that final value.
  * `Step`/`Reachable` is a small-step scheduler semantics of the
    interleaving itself: each item's task is `waiting` (created, queued
    on the semaphore), `running` (permit held, scoring call in flight),
    `done` (returned a result, progress ticked, permit released) or
    `failed` (raised, permit released by exiting `async with sem`, no
    progress tick).  Between the return of `get_eval_score`, the
    `progress_bar.update(1)` and the exit of the `async with` block
    there is no `await`, so the event loop cannot interleave there:
    completion is a single atomic step.
-/

namespace GEval

/-- JSON values, as produced by Python's `json.loads`.  The judge's
`total_score` is an integer, so numbers are modelled by `Int`. -/
inductive JValue where
  | str : String → JValue
  | num : Int → JValue
  | bool : Bool → JValue
  | null : JValue
  | arr : List JValue → JValue
  | obj : List (String × JValue) → JValue

/-- A Python dict with string keys, as an association list in insertion
order (a real Python dict never holds a duplicate key). -/
abbrev Dict := List (String × JValue)

/-- `d[k]` as an `Option`: first (and in a real dict, only) binding. -/
def lookup : Dict → String → Option JValue
  | [], _ => none
  | (k2, v) :: rest, k => if k = k2 then some v else lookup rest k

/-- Last binding of `k` in `d`; this is the value a key ends up with
when the pairs of `d` are inserted left to right into a dict. -/
def lookupLast : Dict → String → Option JValue
  | [], _ => none
  | (k2, v) :: rest, k =>
    match lookupLast rest k with
    | some w => some w
    | none => if k = k2 then some v else none

/-- Python dict assignment `d[k] = v`: update the existing binding in
place, else append a new one. -/
def dictInsert (d : Dict) (k : String) (v : JValue) : Dict :=
  if d.any (fun p => p.1 = k) then
    d.map (fun p => if p.1 = k then (k, v) else p)
  else
    d ++ [(k, v)]

/-- Python `{**a, **b}`: a fresh dict holding `a`'s bindings, then
`b`'s bindings inserted one by one (so `b` wins on key collision and
new keys of `b` are appended in order). -/
def mergeDicts (a b : Dict) : Dict :=
  b.foldl (fun acc kv => dictInsert acc kv.1 kv.2) a

/-- `v` is a JSON object (a Python mapping, as `{**sample, **v}`
requires). -/
def JValue.isObj : JValue → Bool
  | .obj _ => true
  | _ => false

/-- The exceptions `get_eval_score` can raise. -/
inductive EvalError where
  | keyError        -- the sample lacks `question`, `context` or `answer`
  | jsonDecodeError -- `json.loads(results)` raised
  | typeError       -- `{**sample, **x}` with a non-mapping `x`

/-- The judge model's response content after `json.loads`: either the
content is not valid JSON (`json.loads` raises) or it parses. -/
inductive Payload where
  | invalid : Payload
  | parsed : JValue → Payload

/-- Which keys a judge payload would write during the merge. -/
def payloadHasKey : Payload → String → Bool
  | .parsed (.obj fields), k => (lookupLast fields k).isSome
  | _, _ => false

/-- Capacity of the admission gate of the source,
`sem = asyncio.Semaphore(5)`. -/
def sem : Nat := 5

/-- `get_eval_score(sample)`: the prompt rendering reads
`sample["question"]`, `sample["context"]` and `sample["answer"]`
(KeyError when absent), the network call and `json.loads` of its
message content are the abstract `judge`, and the result is
`{**sample, **json.loads(results)}` — a TypeError when the parsed
payload is not a mapping, otherwise the merged dict. -/
def get_eval_score (judge : Dict → Payload) (sample : Dict) : Except EvalError Dict :=
  match lookup sample "question", lookup sample "context", lookup sample "answer" with
  | some _, some _, some _ =>
    match judge sample with
    | .invalid => .error .jsonDecodeError
    | .parsed (.obj fields) => .ok (mergeDicts sample fields)
    | .parsed _ => .error .typeError
  | _, _, _ => .error .keyError

/-- The `tqdm_asyncio` progress bar: its `total`, the number of
`update(1)` ticks received, and whether `close()` has run. -/
structure ProgressBar where
  total : Nat
  count : Nat
  closed : Bool

/-- Value computed by `await tqdm_asyncio.gather(*tasks)` followed by
`progress_bar.close()`: results in task-submission order, one progress
tick per successful item; the first failing task's exception
propagates and the bar is then never closed. -/
def gatherLoop (judge : Dict → Payload) :
    List Dict → ProgressBar → Except EvalError (List Dict × ProgressBar)
  | [], bar => .ok ([], { bar with closed := true })
  | s :: rest, bar =>
    match get_eval_score judge s with
    | .error e => .error e
    | .ok r =>
      match gatherLoop judge rest { bar with count := bar.count + 1 } with
      | .error e => .error e
      | .ok (rs, bar2) => .ok (r :: rs, bar2)

/-- Denotation of `limited_get_score(dataset)`: make a progress bar
with `total=len(dataset)`, run every sample through `gen`
(= `get_eval_score` plus a progress tick), gather positionally, close
the bar, return the responses. -/
def limited_get_score (judge : Dict → Payload) (dataset : List Dict) :
    Except EvalError (List Dict × ProgressBar) :=
  gatherLoop judge dataset { total := dataset.length, count := 0, closed := false }

/-! ### Small-step scheduler semantics of the interleaved `gen` tasks -/

/-- Lifecycle of one item's `gen` task. -/
inductive TaskPhase where
  | waiting : TaskPhase
  | running : TaskPhase
  | done : Dict → TaskPhase
  | failed : EvalError → TaskPhase

def TaskPhase.isWaiting : TaskPhase → Bool
  | .waiting => true
  | _ => false

def TaskPhase.isRunning : TaskPhase → Bool
  | .running => true
  | _ => false

def TaskPhase.isDone : TaskPhase → Bool
  | .done _ => true
  | _ => false

/-- Scheduler state: one phase per item, the semaphore's free-permit
count, and the progress bar's tick count. -/
structure SchedState where
  phases : List TaskPhase
  permits : Nat
  progress : Nat

/-- Number of scoring calls in flight. -/
def countRunning (phases : List TaskPhase) : Nat :=
  phases.countP TaskPhase.isRunning

/-- Number of successfully completed items. -/
def countDone (phases : List TaskPhase) : Nat :=
  phases.countP TaskPhase.isDone

/-- Start of `limited_get_score`: every task created and queued, all
`C` permits free, progress bar at 0. -/
def initState (items : List Dict) (C : Nat) : SchedState :=
  { phases := items.map (fun _ => TaskPhase.waiting), permits := C, progress := 0 }

/-- One event-loop step of the batch run.  `acquire` is `async with
sem` granting a free permit to a queued task; `finishOk` is the atomic
return of `get_eval_score`, `progress_bar.update(1)` and the release of
the permit on leaving the `async with` block; `finishErr` is
`get_eval_score` raising, which skips the tick but still releases the
permit on the way out. -/
inductive Step (judge : Dict → Payload) (items : List Dict) : SchedState → SchedState → Prop
  | acquire (s : SchedState) (i : Nat) (hi : i < s.phases.length)
      (hw : s.phases[i] = TaskPhase.waiting) (hp : 0 < s.permits) :
      Step judge items s
        { phases := s.phases.set i TaskPhase.running,
          permits := s.permits - 1, progress := s.progress }
  | finishOk (s : SchedState) (i : Nat) (hi : i < s.phases.length)
      (hh : i < items.length) (r : Dict)
      (hr : s.phases[i] = TaskPhase.running)
      (hok : get_eval_score judge items[i] = .ok r) :
      Step judge items s
        { phases := s.phases.set i (TaskPhase.done r),
          permits := s.permits + 1, progress := s.progress + 1 }
  | finishErr (s : SchedState) (i : Nat) (hi : i < s.phases.length)
      (hh : i < items.length) (e : EvalError)
      (hr : s.phases[i] = TaskPhase.running)
      (herr : get_eval_score judge items[i] = .error e) :
      Step judge items s
        { phases := s.phases.set i (TaskPhase.failed e),
          permits := s.permits + 1, progress := s.progress }

/-- States the batch run can be in, from its start. -/
def Reachable (judge : Dict → Payload) (items : List Dict) (C : Nat)
    (s : SchedState) : Prop :=
  Relation.ReflTransGen (Step judge items) (initState items C) s

/-- What `gather` hands back once every task has a result: `some rs`
exactly when all tasks are `done`, collected slot by slot in
task-submission order. -/
def collectResults : List TaskPhase → Option (List Dict)
  | [] => some []
  | ph :: rest =>
    match ph with
    | TaskPhase.done r => (collectResults rest).map (fun rs => r :: rs)
    | _ => none

/-- The run invariant: one phase slot per item; free permits plus
in-flight calls always account for all `C` permits (no permit is ever
leaked or duplicated); the progress count is exactly the number of
successfully completed items; and a `done` slot holds exactly the value
`get_eval_score` returned for that item. -/
structure Inv (judge : Dict → Payload) (items : List Dict) (C : Nat)
    (s : SchedState) : Prop where
  len : s.phases.length = items.length
  gate : s.permits + countRunning s.phases = C
  prog : s.progress = countDone s.phases
  slots : ∀ i (hi : i < s.phases.length) (r : Dict),
    s.phases[i] = TaskPhase.done r →
    ∀ hh : i < items.length, get_eval_score judge items[i] = .ok r

/-! ### Concrete instances used by witnesses and counterexamples -/

/-- The spec's example Work Item `{"question": "Q", "context": "C",
"answer": "A"}`. -/
def sampleEx : Dict :=
  [("question", JValue.str "Q"), ("context", JValue.str "C"), ("answer", JValue.str "A")]

/-- The spec's example judge output fields
`{"reasoning": "...", "total_score": 3}`. -/
def judgeFieldsEx : Dict :=
  [("reasoning", JValue.str "..."), ("total_score", JValue.num 3)]

/-- A judge whose answer always parses to the example output object. -/
def judgeOk : Dict → Payload := fun _ => Payload.parsed (JValue.obj judgeFieldsEx)

/-- A judge whose answer is never valid JSON. -/
def judgeBad : Dict → Payload := fun _ => Payload.invalid

/-- A judge answering with the valid JSON object `{}`, which lacks both
`reasoning` and `total_score`. -/
def judgeEmptyObj : Dict → Payload := fun _ => Payload.parsed (JValue.obj [])

/-! ### Dictionary lemmas -/

theorem lookup_cons (k1 : String) (v : JValue) (rest : Dict) (k : String) :
    lookup ((k1, v) :: rest) k = if k = k1 then some v else lookup rest k := rfl

theorem lookupLast_cons (k1 : String) (v : JValue) (rest : Dict) (k : String) :
    lookupLast ((k1, v) :: rest) k =
      match lookupLast rest k with
      | some w => some w
      | none => if k = k1 then some v else none := rfl

theorem lookup_eq_none_of_not_mem (d : Dict) (k : String)
    (h : k ∉ d.map Prod.fst) : lookup d k = none := by
  induction d with
  | nil => rfl
  | cons p rest ih =>
    obtain ⟨k1, v1⟩ := p
    simp only [List.map_cons, List.mem_cons] at h
    push_neg at h
    rw [lookup_cons, if_neg h.1, ih h.2]

theorem lookup_append (d1 d2 : Dict) (k : String) :
    lookup (d1 ++ d2) k =
      match lookup d1 k with
      | some v => some v
      | none => lookup d2 k := by
  induction d1 with
  | nil => rfl
  | cons p rest ih =>
    obtain ⟨k1, v1⟩ := p
    rw [List.cons_append, lookup_cons, lookup_cons]
    by_cases hk : k = k1
    · rw [if_pos hk, if_pos hk]
    · rw [if_neg hk, if_neg hk, ih]

theorem lookup_map_update (d : Dict) (k k2 : String) (v : JValue) :
    lookup (d.map (fun p => if p.1 = k then (k, v) else p)) k2 =
      if k2 = k then (lookup d k).map (fun _ => v) else lookup d k2 := by
  induction d with
  | nil =>
    by_cases h : k2 = k
    · rw [if_pos h]; rfl
    · rw [if_neg h]; rfl
  | cons p rest ih =>
    obtain ⟨k1, w⟩ := p
    rw [List.map_cons]
    show lookup ((if k1 = k then (k, v) else (k1, w)) ::
      rest.map (fun p => if p.1 = k then (k, v) else p)) k2 = _
    by_cases h1 : k1 = k
    · rw [if_pos h1, lookup_cons, lookup_cons, lookup_cons]
      by_cases h2 : k2 = k
      · rw [if_pos h2, if_pos h2, if_pos h1.symm]
        rfl
      · rw [if_neg h2, if_neg h2, ih, if_neg h2,
          if_neg (fun hh => h2 (hh.trans h1))]
    · rw [if_neg h1, lookup_cons, lookup_cons, lookup_cons]
      by_cases h2 : k2 = k1
      · have h3 : ¬k2 = k := fun hh => h1 (h2.symm.trans hh)
        rw [if_pos h2, if_neg h3, if_pos h2]
      · rw [if_neg h2, if_neg h2, ih]
        by_cases h4 : k2 = k
        · rw [if_pos h4, if_pos h4, if_neg (fun hh => h1 hh.symm)]
        · rw [if_neg h4, if_neg h4]

theorem lookup_dictInsert (d : Dict) (k k2 : String) (v : JValue) :
    lookup (dictInsert d k v) k2 = if k2 = k then some v else lookup d k2 := by
  rw [dictInsert]
  by_cases hmem : (d.any fun p => decide (p.1 = k)) = true
  · rw [if_pos hmem, lookup_map_update]
    obtain ⟨p, hp, hpk⟩ := List.any_eq_true.mp hmem
    have hsome : ∃ w, lookup d k = some w := by
      clear hmem
      induction d with
      | nil => exact absurd hp (List.not_mem_nil p)
      | cons q rest ih =>
        obtain ⟨q1, w1⟩ := q
        rcases List.mem_cons.mp hp with hh | ht
        · refine ⟨w1, ?_⟩
          rw [lookup_cons, if_pos]
          rw [hh] at hpk
          exact (of_decide_eq_true hpk).symm
        · rw [lookup_cons]
          by_cases hq : k = q1
          · exact ⟨w1, by rw [if_pos hq]⟩
          · rw [if_neg hq]; exact ih ht
    obtain ⟨w, hw⟩ := hsome
    by_cases h2 : k2 = k
    · rw [if_pos h2, if_pos h2, hw]; rfl
    · rw [if_neg h2, if_neg h2]
  · rw [if_neg hmem, lookup_append]
    have hnone : lookup d k = none := by
      apply lookup_eq_none_of_not_mem
      intro hk
      apply hmem
      obtain ⟨p, hp, hpk⟩ := List.mem_map.mp hk
      exact List.any_eq_true.mpr ⟨p, hp, decide_eq_true hpk⟩
    by_cases h2 : k2 = k
    · rw [if_pos h2, h2, hnone, lookup_cons, if_pos rfl]
    · rw [if_neg h2]
      have : lookup [(k, v)] k2 = none := by
        rw [lookup_cons, if_neg h2]; rfl
      rw [this]
      cases lookup d k2 <;> rfl

theorem lookup_mergeDicts (b a : Dict) (k : String) :
    lookup (mergeDicts a b) k =
      match lookupLast b k with
      | some v => some v
      | none => lookup a k := by
  induction b generalizing a with
  | nil => rfl
  | cons p bs ih =>
    obtain ⟨k1, v1⟩ := p
    show lookup (mergeDicts (dictInsert a k1 v1) bs) k = _
    rw [ih, lookupLast_cons]
    cases hbs : lookupLast bs k with
    | some w => rfl
    | none =>
      rw [lookup_dictInsert]
      by_cases hk : k = k1
      · rw [if_pos hk, if_pos hk]
      · rw [if_neg hk, if_neg hk]

theorem lookupLast_eq_lookup (d : Dict) (hnd : (d.map Prod.fst).Nodup) (k : String) :
    lookupLast d k = lookup d k := by
  induction d with
  | nil => rfl
  | cons p rest ih =>
    obtain ⟨k1, v1⟩ := p
    simp only [List.map_cons, List.nodup_cons] at hnd
    rw [lookupLast_cons, lookup_cons, ih hnd.2]
    by_cases hk : k = k1
    · rw [if_pos hk, hk, lookup_eq_none_of_not_mem rest k1 hnd.1, if_pos rfl]
    · rw [if_neg hk, if_neg hk]
      cases lookup rest k <;> rfl

/-- Inversion of a successful `get_eval_score`: the payload parsed to a
JSON object and the result is exactly `{**sample, **fields}`. -/
theorem get_eval_score_ok_inv (judge : Dict → Payload) (sample r : Dict)
    (h : get_eval_score judge sample = .ok r) :
    ∃ fields, judge sample = .parsed (.obj fields) ∧ r = mergeDicts sample fields := by
  rw [get_eval_score] at h
  split at h
  · split at h
    · simp at h
    · rename_i fields hj
      exact ⟨fields, hj, by simpa using h.symm⟩
    · simp at h
  · simp at h

/-! ### Lemmas about the batch denotation -/

/-- Inversion of a successful batch: every item was scored
successfully, results sit at the positions of their items, the bar got
one tick per item and was closed. -/
theorem gatherLoop_ok_inv (judge : Dict → Payload) (l : List Dict)
    (bar : ProgressBar) (rs : List Dict) (bar2 : ProgressBar)
    (h : gatherLoop judge l bar = .ok (rs, bar2)) :
    rs.length = l.length ∧ bar2.total = bar.total ∧
      bar2.count = bar.count + l.length ∧ bar2.closed = true ∧
      ∀ i (hh : i < l.length) (hi : i < rs.length),
        get_eval_score judge l[i] = .ok rs[i] := by
  induction l generalizing bar rs bar2 with
  | nil =>
    rw [gatherLoop] at h
    simp only [Except.ok.injEq, Prod.mk.injEq] at h
    obtain ⟨hrs, hbar⟩ := h
    subst hrs
    subst hbar
    refine ⟨rfl, rfl, by simp, rfl, ?_⟩
    intro i hh hi
    exact absurd hh (Nat.not_lt_zero i)
  | cons s rest ih =>
    rw [gatherLoop] at h
    cases hg : get_eval_score judge s with
    | error e => rw [hg] at h; exact absurd h (by simp)
    | ok r =>
      rw [hg] at h
      cases hrec : gatherLoop judge rest { bar with count := bar.count + 1 } with
      | error e => rw [hrec] at h; exact absurd h (by simp)
      | ok p =>
        obtain ⟨rs2, bar3⟩ := p
        rw [hrec] at h
        simp only [Except.ok.injEq, Prod.mk.injEq] at h
        obtain ⟨hrs, hbar⟩ := h
        subst hrs
        subst hbar
        obtain ⟨hlen, htot, hcnt, hcl, hpos⟩ := ih _ rs2 _ hrec
        refine ⟨by simp [hlen], htot, by simp at hcnt ⊢; omega, hcl, ?_⟩
        intro i hh hi
        cases i with
        | zero => simpa using hg
        | succ j =>
          rw [List.getElem_cons_succ, List.getElem_cons_succ]
          exact hpos j (by simpa using hh) (by simpa using hi)

/-- If every item scores successfully, the gather returns a success. -/
theorem gatherLoop_ok_of_all_ok (judge : Dict → Payload) (l : List Dict)
    (h : ∀ s ∈ l, ∃ r, get_eval_score judge s = .ok r) (bar : ProgressBar) :
    ∃ rs bar2, gatherLoop judge l bar = .ok (rs, bar2) := by
  induction l generalizing bar with
  | nil => exact ⟨[], { bar with closed := true }, rfl⟩
  | cons s rest ih =>
    obtain ⟨r, hr⟩ := h s (List.mem_cons_self s rest)
    obtain ⟨rs2, bar3, hrec⟩ :=
      ih (fun x hx => h x (List.mem_cons_of_mem s hx)) { bar with count := bar.count + 1 }
    exact ⟨r :: rs2, bar3, by rw [gatherLoop, hr, hrec]⟩

/-- If any one item's scoring raises, the whole gather raises. -/
theorem gatherLoop_err_of_one_err (judge : Dict → Payload) (l : List Dict)
    (i : Nat) (hi : i < l.length) (e : EvalError)
    (he : get_eval_score judge l[i] = .error e) (bar : ProgressBar) :
    ∃ e2, gatherLoop judge l bar = .error e2 := by
  induction l generalizing bar i with
  | nil => exact absurd hi (Nat.not_lt_zero i)
  | cons s rest ih =>
    cases hg : get_eval_score judge s with
    | error e3 => exact ⟨e3, by rw [gatherLoop, hg]⟩
    | ok r =>
      cases i with
      | zero =>
        rw [List.getElem_cons_zero, hg] at he
        exact absurd he (by simp)
      | succ j =>
        rw [List.getElem_cons_succ] at he
        obtain ⟨e2, hrec⟩ :=
          ih j (by simpa using hi) he { bar with count := bar.count + 1 }
        exact ⟨e2, by rw [gatherLoop, hg, hrec]⟩

/-! ### Lemmas about the scheduler semantics -/

theorem countP_set (p : TaskPhase → Bool) (l : List TaskPhase) (i : Nat)
    (v : TaskPhase) (hi : i < l.length) :
    (l.set i v).countP p + (if p l[i] then 1 else 0) =
      l.countP p + (if p v then 1 else 0) := by
  induction l generalizing i with
  | nil => exact absurd hi (Nat.not_lt_zero i)
  | cons a rest ih =>
    cases i with
    | zero =>
      rw [List.set_cons_zero, List.countP_cons, List.countP_cons,
        List.getElem_cons_zero]
      omega
    | succ j =>
      rw [List.set_cons_succ, List.countP_cons, List.countP_cons,
        List.getElem_cons_succ]
      have := ih j (by simpa using hi)
      omega

theorem ite_of_true (b : Bool) (hb : b = true) :
    (if b = true then (1 : Nat) else 0) = 1 := by rw [hb]; rfl

theorem ite_of_false (b : Bool) (hb : b = false) :
    (if b = true then (1 : Nat) else 0) = 0 := by rw [hb]; rfl

theorem initState_phases (items : List Dict) (C : Nat) :
    (initState items C).phases = items.map fun _ => TaskPhase.waiting := rfl

theorem inv_init (judge : Dict → Payload) (items : List Dict) (C : Nat) :
    Inv judge items C (initState items C) := by
  refine ⟨?_, ?_, ?_, ?_⟩
  · show (items.map fun _ => TaskPhase.waiting).length = items.length
    exact List.length_map items _
  · show C + countRunning (items.map fun _ => TaskPhase.waiting) = C
    have h0 : countRunning (items.map fun _ => TaskPhase.waiting) = 0 := by
      rw [countRunning]
      apply List.countP_eq_zero.mpr
      intro a ha
      obtain ⟨x, hx, rfl⟩ := List.mem_map.mp ha
      decide
    omega
  · show 0 = countDone (items.map fun _ => TaskPhase.waiting)
    have h0 : countDone (items.map fun _ => TaskPhase.waiting) = 0 := by
      rw [countDone]
      apply List.countP_eq_zero.mpr
      intro a ha
      obtain ⟨x, hx, rfl⟩ := List.mem_map.mp ha
      decide
    omega
  · intro i hi r hdone hh
    simp only [initState_phases, List.getElem_map] at hdone
    exact absurd hdone (by simp)

theorem inv_step (judge : Dict → Payload) (items : List Dict) (C : Nat)
    (s s2 : SchedState) (hinv : Inv judge items C s)
    (hstep : Step judge items s s2) : Inv judge items C s2 := by
  cases hstep with
  | acquire i hi hw hp =>
    have hrun := countP_set TaskPhase.isRunning s.phases i TaskPhase.running hi
    have hdon := countP_set TaskPhase.isDone s.phases i TaskPhase.running hi
    rw [hw, ite_of_false (TaskPhase.isRunning TaskPhase.waiting) rfl,
      ite_of_true (TaskPhase.isRunning TaskPhase.running) rfl] at hrun
    rw [hw, ite_of_false (TaskPhase.isDone TaskPhase.waiting) rfl,
      ite_of_false (TaskPhase.isDone TaskPhase.running) rfl] at hdon
    have hg := hinv.gate
    have hpr := hinv.prog
    rw [countRunning] at hg
    rw [countDone] at hpr
    refine ⟨?_, ?_, ?_, ?_⟩
    · show (s.phases.set i TaskPhase.running).length = items.length
      rw [List.length_set]; exact hinv.len
    · show s.permits - 1 + countRunning (s.phases.set i TaskPhase.running) = C
      rw [countRunning]
      omega
    · show s.progress = countDone (s.phases.set i TaskPhase.running)
      rw [countDone]
      omega
    · intro j hj r hdone hh
      rw [List.length_set] at hj
      by_cases hij : i = j
      · subst hij
        rw [List.getElem_set_self] at hdone
        exact absurd hdone (by simp)
      · rw [List.getElem_set_ne hij] at hdone
        exact hinv.slots j hj r hdone hh
  | finishOk i hi hh r hr hok =>
    have hrun := countP_set TaskPhase.isRunning s.phases i (TaskPhase.done r) hi
    have hdon := countP_set TaskPhase.isDone s.phases i (TaskPhase.done r) hi
    rw [hr, ite_of_true (TaskPhase.isRunning TaskPhase.running) rfl,
      ite_of_false (TaskPhase.isRunning (TaskPhase.done r)) rfl] at hrun
    rw [hr, ite_of_false (TaskPhase.isDone TaskPhase.running) rfl,
      ite_of_true (TaskPhase.isDone (TaskPhase.done r)) rfl] at hdon
    have hg := hinv.gate
    have hpr := hinv.prog
    rw [countRunning] at hg
    rw [countDone] at hpr
    refine ⟨?_, ?_, ?_, ?_⟩
    · show (s.phases.set i (TaskPhase.done r)).length = items.length
      rw [List.length_set]; exact hinv.len
    · show s.permits + 1 + countRunning (s.phases.set i (TaskPhase.done r)) = C
      rw [countRunning]
      omega
    · show s.progress + 1 = countDone (s.phases.set i (TaskPhase.done r))
      rw [countDone]
      omega
    · intro j hj r2 hdone hh2
      rw [List.length_set] at hj
      by_cases hij : i = j
      · subst hij
        rw [List.getElem_set_self] at hdone
        injection hdone with h3
        subst h3
        exact hok
      · rw [List.getElem_set_ne hij] at hdone
        exact hinv.slots j hj r2 hdone hh2
  | finishErr i hi hh e hr herr =>
    have hrun := countP_set TaskPhase.isRunning s.phases i (TaskPhase.failed e) hi
    have hdon := countP_set TaskPhase.isDone s.phases i (TaskPhase.failed e) hi
    rw [hr, ite_of_true (TaskPhase.isRunning TaskPhase.running) rfl,
      ite_of_false (TaskPhase.isRunning (TaskPhase.failed e)) rfl] at hrun
    rw [hr, ite_of_false (TaskPhase.isDone TaskPhase.running) rfl,
      ite_of_false (TaskPhase.isDone (TaskPhase.failed e)) rfl] at hdon
    have hg := hinv.gate
    have hpr := hinv.prog
    rw [countRunning] at hg
    rw [countDone] at hpr
    refine ⟨?_, ?_, ?_, ?_⟩
    · show (s.phases.set i (TaskPhase.failed e)).length = items.length
      rw [List.length_set]; exact hinv.len
    · show s.permits + 1 + countRunning (s.phases.set i (TaskPhase.failed e)) = C
      rw [countRunning]
      omega
    · show s.progress = countDone (s.phases.set i (TaskPhase.failed e))
      rw [countDone]
      omega
    · intro j hj r2 hdone hh2
      rw [List.length_set] at hj
      by_cases hij : i = j
      · subst hij
        rw [List.getElem_set_self] at hdone
        exact absurd hdone (by simp)
      · rw [List.getElem_set_ne hij] at hdone
        exact hinv.slots j hj r2 hdone hh2

/-- The run invariant holds in every reachable state. -/
theorem reachable_inv (judge : Dict → Payload) (items : List Dict) (C : Nat)
    (s : SchedState) (h : Reachable judge items C s) : Inv judge items C s := by
  rw [Reachable] at h
  induction h with
  | refl => exact inv_init judge items C
  | tail hr hstep ih => exact inv_step judge items C _ _ ih hstep

/-- `collectResults` succeeds exactly on an all-`done` phase vector and
reads the slots positionally. -/
theorem collectResults_some (phases : List TaskPhase) (rs : List Dict)
    (h : collectResults phases = some rs) :
    rs.length = phases.length ∧
      ∀ i (hi : i < phases.length) (hr : i < rs.length),
        phases[i] = TaskPhase.done rs[i] := by
  induction phases generalizing rs with
  | nil =>
    rw [collectResults] at h
    cases h
    exact ⟨rfl, fun i hi _ => absurd hi (Nat.not_lt_zero i)⟩
  | cons ph rest ih =>
    cases ph with
    | done r =>
      replace h : (collectResults rest).map (fun rs => r :: rs) = some rs := h
      cases hrec : collectResults rest with
      | none => rw [hrec] at h; exact Option.noConfusion h
      | some rs2 =>
        rw [hrec] at h
        injection h with h2
        subst h2
        obtain ⟨hlen, hpos⟩ := ih rs2 hrec
        refine ⟨by rw [List.length_cons, List.length_cons, hlen], ?_⟩
        intro i hi hr
        cases i with
        | zero => rfl
        | succ j =>
          rw [List.getElem_cons_succ, List.getElem_cons_succ]
          exact hpos j (by simpa using hi) (by simpa using hr)
    | waiting => exact Option.noConfusion h
    | running => exact Option.noConfusion h
    | failed e => exact Option.noConfusion h

/-! ### A concrete two-step run, shared by several witnesses -/

theorem reach_running_ex :
    Reachable judgeOk [sampleEx] sem
      { phases := [TaskPhase.running], permits := 4, progress := 0 } := by
  refine Relation.ReflTransGen.tail Relation.ReflTransGen.refl ?_
  exact Step.acquire (initState [sampleEx] sem) 0 (by decide) rfl (by decide)

theorem reach_done_ex :
    Reachable judgeOk [sampleEx] sem
      { phases := [TaskPhase.done (mergeDicts sampleEx judgeFieldsEx)],
        permits := 5, progress := 1 } := by
  refine Relation.ReflTransGen.tail reach_running_ex ?_
  exact Step.finishOk { phases := [TaskPhase.running], permits := 4, progress := 0 }
    0 (by decide) (by decide) (mergeDicts sampleEx judgeFieldsEx) rfl rfl

/-! ### The claims -/

/-- C1: for every input sequence of N Work Items and concurrency limit
C ≥ 1, whenever the batch run reaches a state in which `gather` can
collect (all tasks `done`), it collects exactly N Score Results, and
the i-th result is the Score Result of the i-th input item — in
particular every input item is represented exactly once, and each
result's pass-through fields (those the judge payload does not
override) match its input item. -/
theorem C1_batch_returns_all_items (judge : Dict → Payload) (items : List Dict)
    (C : Nat) (hC : 1 ≤ C) (s : SchedState) (hreach : Reachable judge items C s)
    (rs : List Dict) (hc : collectResults s.phases = some rs) :
    rs.length = items.length ∧
      ∀ i (hh : i < items.length), ∃ hi : i < rs.length,
        get_eval_score judge items[i] = .ok rs[i] ∧
        ∀ k : String, payloadHasKey (judge items[i]) k = false →
          lookup rs[i] k = lookup items[i] k := by
  have hinv := reachable_inv judge items C s hreach
  obtain ⟨hlen, hpos⟩ := collectResults_some s.phases rs hc
  have hlen2 : rs.length = items.length := hlen.trans hinv.len
  refine ⟨hlen2, ?_⟩
  intro i hh
  have hi : i < rs.length := by omega
  have hip : i < s.phases.length := by
    rw [hinv.len]
    exact hh
  have hdone := hpos i hip hi
  have hok := hinv.slots i hip _ hdone hh
  refine ⟨hi, hok, ?_⟩
  intro k hk
  obtain ⟨fields, hj, hr⟩ := get_eval_score_ok_inv judge items[i] rs[i] hok
  rw [hj] at hk
  replace hk : (lookupLast fields k).isSome = false := hk
  cases hcase : lookupLast fields k with
  | some w => rw [hcase] at hk; simp at hk
  | none => rw [hr, lookup_mergeDicts, hcase]

/-- C2: in every state the batch run can reach, the number of scoring
calls in flight is at most the admission gate's capacity C — the
never-exceeds-C invariant enforced by acquiring a permit before each
call (in the source, C = `sem` = 5). -/
theorem C2_in_flight_at_most_limit (judge : Dict → Payload) (items : List Dict)
    (C : Nat) (s : SchedState) (h : Reachable judge items C s) :
    countRunning s.phases ≤ C := by
  have hinv := reachable_inv judge items C s h
  have := hinv.gate
  omega

/-- Witness for C2 at a concrete mid-run state with one call in
flight under the source's limit of 5. -/
theorem C2_witness :
    countRunning ({ phases := [TaskPhase.running], permits := 4, progress := 0 } : SchedState).phases ≤ sem :=
  C2_in_flight_at_most_limit judgeOk [sampleEx] sem
    { phases := [TaskPhase.running], permits := 4, progress := 0 }
    reach_running_ex

/-- C3's counterexample: the judge answers with the valid JSON object
`{}`, which lacks both `reasoning` and `total_score`; `get_eval_score`
nevertheless succeeds, returning the sample unchanged — no failure
surfaces at the merge, refuting the claim that a payload lacking the
required fields makes the scoring function fail. -/
theorem C3_counterexample :
    get_eval_score judgeEmptyObj sampleEx = .ok sampleEx ∧
    lookup sampleEx "reasoning" = none ∧
    lookup sampleEx "total_score" = none :=
  ⟨rfl, rfl, rfl⟩

/-- C3 (amended): `get_eval_score` fails when the judge payload is not
valid JSON (`json.loads` raises) and when it is valid JSON but not an
object (`{**sample, **x}` raises TypeError); a valid JSON object is
merged without any check of its fields, so a payload lacking
`reasoning` or `total_score` succeeds and the missing fields surface
only later, when downstream code accesses them. -/
theorem C3_amended_failure_modes (judge : Dict → Payload) (sample : Dict)
    (hq : (lookup sample "question").isSome = true)
    (hc : (lookup sample "context").isSome = true)
    (ha : (lookup sample "answer").isSome = true) :
    (judge sample = .invalid →
      get_eval_score judge sample = .error .jsonDecodeError) ∧
    (∀ v, judge sample = .parsed v → v.isObj = false →
      get_eval_score judge sample = .error .typeError) ∧
    (∀ fields, judge sample = .parsed (.obj fields) →
      get_eval_score judge sample = .ok (mergeDicts sample fields)) := by
  obtain ⟨q, hq2⟩ := Option.isSome_iff_exists.mp hq
  obtain ⟨c, hc2⟩ := Option.isSome_iff_exists.mp hc
  obtain ⟨a, ha2⟩ := Option.isSome_iff_exists.mp ha
  refine ⟨?_, ?_, ?_⟩
  · intro hj
    rw [get_eval_score, hq2, hc2, ha2, hj]
  · intro v hj hobj
    cases v with
    | obj fields =>
      rw [JValue.isObj] at hobj
      exact absurd hobj (by simp)
    | str s2 => rw [get_eval_score, hq2, hc2, ha2, hj]
    | num n => rw [get_eval_score, hq2, hc2, ha2, hj]
    | bool b => rw [get_eval_score, hq2, hc2, ha2, hj]
    | null => rw [get_eval_score, hq2, hc2, ha2, hj]
    | arr l => rw [get_eval_score, hq2, hc2, ha2, hj]
  · intro fields hj
    rw [get_eval_score, hq2, hc2, ha2, hj]

/-- Witness for the amended C3: a never-valid-JSON judge fails with a
decode error, and a `{}`-answering judge succeeds with no new
fields. -/
theorem C3_amended_witness :
    get_eval_score judgeBad sampleEx = .error EvalError.jsonDecodeError ∧
    get_eval_score judgeEmptyObj sampleEx = .ok (mergeDicts sampleEx []) := by
  refine ⟨(C3_amended_failure_modes judgeBad sampleEx rfl rfl rfl).1 rfl, ?_⟩
  exact (C3_amended_failure_modes judgeEmptyObj sampleEx rfl rfl rfl).2.2 [] rfl

/-- C4: a successful Score Result is exactly the Work Item's bindings
merged with the judge payload's bindings, and on any key collision the
judge's value wins: looking up any key reads the judge's fields first
and falls back to the Work Item. -/
theorem C4_merge_prefers_judge_fields (judge : Dict → Payload)
    (sample r fields : Dict)
    (hj : judge sample = .parsed (.obj fields))
    (hnd : (fields.map Prod.fst).Nodup)
    (hok : get_eval_score judge sample = .ok r) :
    r = mergeDicts sample fields ∧
      ∀ k, lookup r k =
        match lookup fields k with
        | some v => some v
        | none => lookup sample k := by
  obtain ⟨fields2, hj2, hr⟩ := get_eval_score_ok_inv judge sample r hok
  rw [hj] at hj2
  injection hj2 with h3
  injection h3 with h4
  subst h4
  refine ⟨hr, ?_⟩
  intro k
  rw [hr, lookup_mergeDicts, lookupLast_eq_lookup fields hnd k]

/-- Witness for C4: the spec's example — `{question, context, answer}`
plus `{reasoning, total_score}` yields the five-field union, with
`total_score` readable from the result. -/
theorem C4_witness :
    mergeDicts sampleEx judgeFieldsEx =
      [("question", JValue.str "Q"), ("context", JValue.str "C"),
       ("answer", JValue.str "A"), ("reasoning", JValue.str "..."),
       ("total_score", JValue.num 3)] ∧
    lookup (mergeDicts sampleEx judgeFieldsEx) "total_score" =
      some (JValue.num 3) := by
  have h := C4_merge_prefers_judge_fields judgeOk sampleEx
    (mergeDicts sampleEx judgeFieldsEx) judgeFieldsEx rfl (by decide) rfl
  exact ⟨rfl, (h.2 "total_score").trans rfl⟩

/-- C5: if the scoring function raises for any one of the N items, the
batch operation as a whole fails — an exception propagates from
`limited_get_score` and no result collection is returned. -/
theorem C5_failure_propagates (judge : Dict → Payload) (ds : List Dict)
    (i : Nat) (hi : i < ds.length) (e : EvalError)
    (he : get_eval_score judge ds[i] = .error e) :
    ∃ e2, limited_get_score judge ds = .error e2 := by
  rw [limited_get_score]
  exact gatherLoop_err_of_one_err judge ds i hi e he _

/-- Witness for C5: one invalid-JSON item makes the whole batch
raise. -/
theorem C5_witness :
    ∃ e2, limited_get_score judgeBad [sampleEx] = .error e2 :=
  C5_failure_propagates judgeBad [sampleEx] 0 (by decide)
    EvalError.jsonDecodeError rfl

/-- Witness for C1: the concrete one-item run, driven to completion,
collects exactly the one merged Score Result. -/
theorem C1_witness :
    ([mergeDicts sampleEx judgeFieldsEx] : List Dict).length = [sampleEx].length ∧
      ∀ i (hh : i < [sampleEx].length),
        ∃ hi : i < ([mergeDicts sampleEx judgeFieldsEx] : List Dict).length,
          get_eval_score judgeOk [sampleEx][i] =
            .ok ([mergeDicts sampleEx judgeFieldsEx] : List Dict)[i] ∧
          ∀ k : String, payloadHasKey (judgeOk [sampleEx][i]) k = false →
            lookup ([mergeDicts sampleEx judgeFieldsEx] : List Dict)[i] k =
              lookup [sampleEx][i] k :=
  C1_batch_returns_all_items judgeOk [sampleEx] sem (by decide)
    { phases := [TaskPhase.done (mergeDicts sampleEx judgeFieldsEx)], permits := 5, progress := 1 }
    reach_done_ex [mergeDicts sampleEx judgeFieldsEx] rfl

/-- C6: the progress counter never decreases, moves by at most one per
event-loop step, and moves by exactly one precisely when an item
completes successfully (it always equals the number of successful
completions, so after all N items succeed it equals N); on a fully
successful batch the returned progress bar shows N of N ticks and has
been closed. -/
theorem C6_progress_accounting (judge : Dict → Payload) (items : List Dict)
    (C : Nat) :
    (∀ s s2, Step judge items s s2 →
      s.progress ≤ s2.progress ∧ s2.progress ≤ s.progress + 1 ∧
        (s2.progress = s.progress + 1 ↔
          countDone s2.phases = countDone s.phases + 1)) ∧
    (∀ s, Reachable judge items C s → s.progress = countDone s.phases) ∧
    (∀ s, Reachable judge items C s →
      (∀ i (hi : i < s.phases.length), (s.phases[i]).isDone = true) →
      s.progress = items.length) ∧
    (∀ rs bar, limited_get_score judge items = .ok (rs, bar) →
      bar.count = items.length ∧ bar.closed = true) := by
  refine ⟨?_, ?_, ?_, ?_⟩
  · intro s s2 hstep
    cases hstep with
    | acquire i hi hw hp =>
      have hdon := countP_set TaskPhase.isDone s.phases i TaskPhase.running hi
      rw [hw, ite_of_false (TaskPhase.isDone TaskPhase.waiting) rfl,
        ite_of_false (TaskPhase.isDone TaskPhase.running) rfl] at hdon
      refine ⟨Nat.le.refl, Nat.le_succ _, ?_⟩
      show s.progress = s.progress + 1 ↔
        countDone (s.phases.set i TaskPhase.running) = countDone s.phases + 1
      rw [countDone, countDone]
      omega
    | finishOk i hi hh r hr hok =>
      have hdon := countP_set TaskPhase.isDone s.phases i (TaskPhase.done r) hi
      rw [hr, ite_of_false (TaskPhase.isDone TaskPhase.running) rfl,
        ite_of_true (TaskPhase.isDone (TaskPhase.done r)) rfl] at hdon
      refine ⟨Nat.le_succ _, Nat.le.refl, ?_⟩
      show s.progress + 1 = s.progress + 1 ↔
        countDone (s.phases.set i (TaskPhase.done r)) = countDone s.phases + 1
      rw [countDone, countDone]
      omega
    | finishErr i hi hh e hr herr =>
      have hdon := countP_set TaskPhase.isDone s.phases i (TaskPhase.failed e) hi
      rw [hr, ite_of_false (TaskPhase.isDone TaskPhase.running) rfl,
        ite_of_false (TaskPhase.isDone (TaskPhase.failed e)) rfl] at hdon
      refine ⟨Nat.le.refl, Nat.le_succ _, ?_⟩
      show s.progress = s.progress + 1 ↔
        countDone (s.phases.set i (TaskPhase.failed e)) = countDone s.phases + 1
      rw [countDone, countDone]
      omega
  · intro s h
    exact (reachable_inv judge items C s h).prog
  · intro s h hall
    have hinv := reachable_inv judge items C s h
    have hfull : countDone s.phases = s.phases.length := by
      rw [countDone]
      apply List.countP_eq_length.mpr
      intro a ha
      obtain ⟨i, hi, heq⟩ := List.getElem_of_mem ha
      rw [← heq]
      exact hall i hi
    rw [hinv.prog, hfull, hinv.len]
  · intro rs bar h
    rw [limited_get_score] at h
    obtain ⟨hlen, htot, hcnt, hcl, hpos⟩ := gatherLoop_ok_inv judge items _ rs bar h
    exact ⟨by simpa using hcnt, hcl⟩

/-- Witness for C6: the one-item success run returns a closed bar
showing 1 of 1. -/
theorem C6_witness :
    (⟨1, 1, true⟩ : ProgressBar).count = [sampleEx].length ∧
    (⟨1, 1, true⟩ : ProgressBar).closed = true :=
  (C6_progress_accounting judgeOk [sampleEx] sem).2.2.2
    [mergeDicts sampleEx judgeFieldsEx] ⟨1, 1, true⟩ rfl

/-- C7: in every reachable state the free permits and the in-flight
calls together account for all C permits — every permit taken for a
scoring call comes back when the call exits, on success (`finishOk`)
and on exception (`finishErr`) alike — so whenever no call is in
flight the gate is back to its full capacity and a later batch cannot
deadlock on exhausted permits. -/
theorem C7_permit_release (judge : Dict → Payload) (items : List Dict)
    (C : Nat) (s : SchedState) (h : Reachable judge items C s) :
    s.permits + countRunning s.phases = C ∧
      (countRunning s.phases = 0 → s.permits = C) := by
  have hinv := reachable_inv judge items C s h
  refine ⟨hinv.gate, fun h0 => ?_⟩
  have := hinv.gate
  omega

/-- Witness for C7: after the one-item run completes (success path,
which exercised acquire and release), all 5 permits are free again. -/
theorem C7_witness :
    ({ phases := [TaskPhase.done (mergeDicts sampleEx judgeFieldsEx)], permits := 5, progress := 1 } : SchedState).permits = sem :=
  (C7_permit_release judgeOk [sampleEx] sem
    { phases := [TaskPhase.done (mergeDicts sampleEx judgeFieldsEx)], permits := 5, progress := 1 }
    reach_done_ex).2 rfl

/-- C8: on the empty input the batch returns an empty result
collection at once with a closed 0-of-0 progress bar, and the
scheduler can take no step at all: the start state is the only
reachable one, so no permit is ever acquired and the progress count
stays 0. -/
theorem C8_empty_batch (judge : Dict → Payload) (C : Nat) :
    limited_get_score judge [] =
      .ok ([], { total := 0, count := 0, closed := true }) ∧
    ∀ s, Reachable judge [] C s →
      s = initState [] C ∧ s.permits = C ∧ s.progress = 0 := by
  refine ⟨rfl, ?_⟩
  intro s h
  rw [Reachable] at h
  have hs : s = initState [] C := by
    induction h with
    | refl => rfl
    | tail hr hstep ih =>
      subst ih
      cases hstep with
      | acquire i hi hw hp =>
        rw [initState_phases] at hi
        simp at hi
      | finishOk i hi hh r hr2 hok => simp at hh
      | finishErr i hi hh e hr2 herr => simp at hh
  refine ⟨hs, ?_, ?_⟩
  · rw [hs]; rfl
  · rw [hs]; rfl

/-- Witness for C8 at the actual start state of an empty run. -/
theorem C8_witness :
    limited_get_score judgeOk [] =
      .ok ([], { total := 0, count := 0, closed := true }) ∧
    (initState [] sem).permits = sem := by
  refine ⟨(C8_empty_batch judgeOk sem).1, ?_⟩
  exact ((C8_empty_batch judgeOk sem).2 (initState [] sem)
    Relation.ReflTransGen.refl).2.1

/-- C9: the batching layer forwards each Work Item itself, untouched,
to the scoring function — on success the i-th result is exactly
`get_eval_score` of the i-th input item — and the merge builds a new
record that leaves every field the judge payload does not override
reading exactly as in the original item. -/
theorem C9_items_passed_through (judge : Dict → Payload) (ds : List Dict) :
    (∀ rs bar, limited_get_score judge ds = .ok (rs, bar) →
      ∀ i (hh : i < ds.length) (hi : i < rs.length),
        get_eval_score judge ds[i] = .ok rs[i]) ∧
    (∀ (sample fields : Dict) (k : String), lookupLast fields k = none →
      lookup (mergeDicts sample fields) k = lookup sample k) := by
  refine ⟨?_, ?_⟩
  · intro rs bar h i hh hi
    rw [limited_get_score] at h
    exact (gatherLoop_ok_inv judge ds _ rs bar h).2.2.2.2 i hh hi
  · intro sample fields k hk
    rw [lookup_mergeDicts, hk]

/-- Witness for C9: the example item is forwarded as-is, and its
`question` field reads unchanged through the merge. -/
theorem C9_witness :
    get_eval_score judgeOk sampleEx = .ok (mergeDicts sampleEx judgeFieldsEx) ∧
    lookup (mergeDicts sampleEx judgeFieldsEx) "question" =
      lookup sampleEx "question" := by
  constructor
  · exact (C9_items_passed_through judgeOk [sampleEx]).1
      [mergeDicts sampleEx judgeFieldsEx] { total := 1, count := 1, closed := true }
      rfl 0 (by decide) (by decide)
  · exact (C9_items_passed_through judgeOk [sampleEx]).2 sampleEx judgeFieldsEx
      "question" rfl

/-- C10: when every scoring call succeeds, `limited_get_score` returns
the results in submission order — the i-th result is the Score Result
of the i-th input item, as `tqdm_asyncio.gather` collects results
positionally — a stronger guarantee than the spec's unordered result
set. -/
theorem C10_results_in_submission_order (judge : Dict → Payload)
    (ds : List Dict) (h : ∀ s ∈ ds, ∃ r, get_eval_score judge s = .ok r) :
    ∃ rs bar, limited_get_score judge ds = .ok (rs, bar) ∧
      rs.length = ds.length ∧
      ∀ i (hh : i < ds.length) (hi : i < rs.length),
        get_eval_score judge ds[i] = .ok rs[i] := by
  rw [limited_get_score]
  obtain ⟨rs, bar2, hok⟩ := gatherLoop_ok_of_all_ok judge ds h _
  exact ⟨rs, bar2, hok,
    (gatherLoop_ok_inv judge ds _ rs bar2 hok).1,
    (gatherLoop_ok_inv judge ds _ rs bar2 hok).2.2.2.2⟩

/-- Witness for C10 on the concrete one-item batch. -/
theorem C10_witness :
    ∃ rs bar, limited_get_score judgeOk [sampleEx] = .ok (rs, bar) ∧
      rs.length = [sampleEx].length ∧
      ∀ i (hh : i < [sampleEx].length) (hi : i < rs.length),
        get_eval_score judgeOk [sampleEx][i] = .ok rs[i] := by
  apply C10_results_in_submission_order judgeOk [sampleEx]
  intro s hs
  rw [List.mem_singleton] at hs
  subst hs
  exact ⟨mergeDicts sampleEx judgeFieldsEx, rfl⟩

end GEval
